import Mathlib

/-!
# Verification of the kvdb ingestion/query pipeline

A shallow embedding, in Lean 4, of the core of the kvdb repository: the
key transform (`reverse`), the record model, the batch-and-write stage of
`loadFile` (src/main.go), the query dispatcher and output formatter of
`main` (src/main.go), and the bbolt / badgerdb backend adapters
(src/bbolt.go, src/badgerdb.go).

Modelling conventions:
- Go strings are modelled at the code-point level as Lean `String`
  (a list of characters); Go `[]byte` payloads are likewise modelled as
  `String` (an opaque sequence of code units suffices for every property
  below, none of which inspects byte-level encoding).
- Channels and goroutine scheduling are modelled by explicit
  nondeterminism parameters: the assignment of stream records to writer
  workers is an explicit assignment list, and the arrival order of
  concurrent query results is an explicit schedule list.
- Fallible external calls (backend `Put`, `Search`, badger `ValueCopy`)
  are modelled by explicit outcome parameters (`Bool` oracles or
  `Except`/`Option` results).
-/

namespace Kvdb

/-! ## Key transform (`reverse`, src/unnamed/part_002 lines 158-164)

Go converts the string to a rune slice, swaps symmetric positions with a
two-pointer loop, and converts back: the code-point sequence is reversed.
`reverse` embeds this at the code-point level as list reversal;
`reverseViaSwap` embeds the same loop through `Array.reverse` (the
identical two-pointer swap) and is proved equal to `reverse`. -/

/-- Go `reverse`: reversal of the sequence of code points of `s`. -/
def reverse (s : String) : String := String.mk s.data.reverse

/-- Go `reverse` rendered through the in-place symmetric-swap loop
(`Array.reverse` performs the same two-pointer swaps as the Go loop). -/
def reverseViaSwap (s : String) : String := String.mk s.data.toArray.reverse.toList

/-! ## Record model (src/main.go lines 19-22) -/

/-- Go `Record`: transformed key plus opaque value payload. -/
structure Record where
  Key : String
  Value : String
deriving DecidableEq, Repr

/-! ## Batch-and-write stage (src/main.go lines 226-244)

Each writer worker accumulates records from the channel into a buffer,
flushes (`Put`) when the buffer length reaches `batchSize`, and after the
channel closes flushes the remaining non-empty buffer once.  The
sequential variant of `loadFile` (src/unnamed/part_002 lines 100-145)
uses the identical accumulate/flush structure with a single stream.
`writerLoop b buf xs` returns the sequence of batches the worker hands to
`Put`, given current buffer `buf` and remaining channel contents `xs`. -/

def writerLoop (batchSize : Nat) : List Record → List Record → List (List Record)
  | buf, [] => if buf.isEmpty then [] else [buf]
  | buf, r :: rs =>
    let buf2 := buf ++ [r]
    if buf2.length = batchSize then buf2 :: writerLoop batchSize [] rs
    else writerLoop batchSize buf2 rs

/-- The batches a single writer worker flushes for input stream `rs`. -/
def writerRun (batchSize : Nat) (rs : List Record) : List (List Record) :=
  writerLoop batchSize [] rs

/-- Ceiling division, `ceil(n / b)` on naturals. -/
def ceilDiv (n b : Nat) : Nat := (n + b - 1) / b

/-! ## Concurrent pipeline distribution (src/main.go lines 221-247)

`loadFile` starts `writersCount = 4` writer goroutines, all receiving from
the single unbuffered `writerCh`.  Which writer receives which record is
decided by the runtime scheduler; we model a schedule as an assignment
list pairing each streamed record with the index of the writer that
receives it (in stream order).  Each writer then runs `writerLoop` on its
own subsequence, and `DummyBackend.Put` (src/unnamed/part_003) records
the batch and returns nil. -/

def parsersCount : Nat := 12

def writersCount : Nat := 4

/-- The subsequence of records delivered to writer `w` under assignment
list `l` (pairs of writer index and record, in stream order). -/
def distShare (w : Nat) (l : List (Nat × Record)) : List Record :=
  (l.filter fun p => p.1 == w).map Prod.snd

/-- All `Put` calls of a `loadFile` run in which the scheduler delivers
the records to the four writers as described by `l`.  The calls are
listed writer by writer; only their multiset matters to the claims. -/
def concurrentPuts (batchSize : Nat) (l : List (Nat × Record)) : List (List Record) :=
  ((List.range writersCount).map fun w => writerRun batchSize (distShare w l)).flatten

/-- Combined number of records over a sequence of `Put` batches. -/
def sumLen (l : List (List Record)) : Nat := (l.map List.length).sum

/-! ## Writer behaviour under `Put` failure (src/main.go lines 229-244)

On a failed `Put` the writer logs `Failed to put records`, resets the
buffer (`records = records[:0]`) and keeps consuming the channel; no
error value escapes the goroutine.  `put` is an outcome oracle mapping
each attempted batch to the success of its `Put` call; each event records
the attempted batch and that outcome. -/

def writerLoopF (put : List Record → Bool) (batchSize : Nat) :
    List Record → List Record → List (List Record × Bool)
  | buf, [] => if buf.isEmpty then [] else [(buf, put buf)]
  | buf, r :: rs =>
    let buf2 := buf ++ [r]
    if buf2.length = batchSize then (buf2, put buf2) :: writerLoopF put batchSize [] rs
    else writerLoopF put batchSize buf2 rs

/-- The sequence of `Put` events (batch, success) of one writer worker. -/
def writerRunF (put : List Record → Bool) (batchSize : Nat) (rs : List Record) :
    List (List Record × Bool) :=
  writerLoopF put batchSize [] rs

/-- The batches in the events whose `Put` failed: they are only logged. -/
def lostBatches (events : List (List Record × Bool)) : List (List Record) :=
  (events.filter fun e => !e.2).map Prod.fst

/-- After both worker pools drain, `loadFile` returns `scanner.Err()`;
`Put` outcomes never reach this value. -/
def loadFileReturn (scanErr : Option String) : Option String := scanErr

/-! ## Extraction stage (src/main.go lines 193-216)

A parser worker extracts the `name` and `value` fields of each line with
`jsonparser.EachKey`; a field that is missing or fails to parse leaves
the corresponding local `[]byte` nil, hence empty.  A record is sent to
the writer channel only when both extracted fields are non-empty; its
key is the transformed name and its value a copy of the raw value bytes.
The two parsed fields are the line's interface to this stage, so a line
is modelled by the ("" when missing or unparsed) field pair. -/

def extractRecord (name value : String) : Option Record :=
  if 0 < name.length ∧ 0 < value.length then
    some { Key := reverse name, Value := value }
  else
    none

/-- Records emitted by the extraction stage for a list of input lines,
each line given by its extracted (name, value) field pair. -/
def extractAll (lines : List (String × String)) : List Record :=
  lines.filterMap fun p => extractRecord p.1 p.2

/-! ## bbolt backend adapter (src/bbolt.go)

A bbolt database holds named buckets of key/value pairs kept in key
order; `bbolt.Open` creates no buckets, `tx.CreateBucketIfNotExists`
creates the bucket on first use, and `tx.Bucket` returns nil when the
named bucket does not exist (per the bbolt API).  The single bucket
"bucket" is modelled as `none` (absent) or `some` sorted association
list.  `BBoltBackend.Search` calls `tx.Bucket(...).Cursor()` without a
nil check (the source comments "Assume bucket exists and has keys"):
calling `Cursor()` on the nil `*bbolt.Bucket` dereferences a nil pointer
and panics, modelled by the `nilBucketPanic` outcome.  On an existing
bucket the cursor seeks to the prefix and scans while `bytes.HasPrefix`
holds, which over keys in ascending order returns exactly the
prefix-matching pairs in key order. -/

/-- Go `bytes.HasPrefix` (and badger `ValidForPrefix`) at the
code-point level: structural prefix test on the character lists. -/
def goHasPrefix (pre s : String) : Bool := pre.data.isPrefixOf s.data

/-- Keyed insert into the sorted pair list of the bucket (bbolt
`bucket.Put`: replaces the value under an existing key). -/
def bucketPut : List (String × String) → String → String → List (String × String)
  | [], k, v => [(k, v)]
  | (k0, v0) :: rest, k, v =>
    if k < k0 then (k, v) :: (k0, v0) :: rest
    else if k = k0 then (k, v) :: rest
    else (k0, v0) :: bucketPut rest k v

/-- State of the bbolt database: the bucket named "bucket", absent
until the first successful `Put` creates it. -/
def bboltOpen : Option (List (String × String)) := none

/-- `BBoltBackend.Put`: one update transaction that creates the bucket
if needed, then stores every record of the batch. -/
def bboltPut (db : Option (List (String × String))) (records : List Record) :
    Option (List (String × String)) :=
  some (records.foldl (fun m r => bucketPut m r.Key r.Value) (db.getD []))

/-- Outcome of `BBoltBackend.Search`: either the Go runtime panic from
dereferencing the nil bucket, or the scanned records. -/
inductive BBoltSearchOutcome where
  | nilBucketPanic
  | ok (records : List Record)
deriving DecidableEq, Repr

/-- `BBoltBackend.Search`: panics when the bucket does not exist,
otherwise returns the prefix scan of the bucket. -/
def bboltSearch (db : Option (List (String × String))) (pre : String) :
    BBoltSearchOutcome :=
  match db with
  | none => .nilBucketPanic
  | some m => .ok ((m.filter fun p => goHasPrefix pre p.1).map fun p => ⟨p.1, p.2⟩)

/-- An end-to-end load into bbolt: the valid records extracted from
`lines` are batched by a writer of capacity `batchSize` and each batch
is stored with one `Put` call. -/
def loadBbolt (batchSize : Nat) (lines : List (String × String)) :
    Option (List (String × String)) :=
  (writerRun batchSize (extractAll lines)).foldl bboltPut bboltOpen

/-- All values stored in a (possibly absent) bucket are non-empty. -/
def BucketValuesNonempty (db : Option (List (String × String))) : Prop :=
  ∀ m, db = some m → ∀ kv ∈ m, 0 < kv.2.length

/-! ## badgerdb backend adapter (src/badgerdb.go lines 38-60)

`BadgerDBBackend.Search` opens a read transaction (`b.db.View`) whose
closure seeks the iterator at the prefix and, while `ValidForPrefix`
holds, copies each item's value with `item.ValueCopy`; a copy error is
returned from the closure, ending the transaction.  `records` lives
outside the closure, so the entries accumulated before the error
survive.  The value the `View` call returns is discarded (not assigned),
and the method returns `records, nil`.  An item is modelled as its key
paired with the outcome of `ValueCopy` for it; the iterator's sequence
of items (ascending keys from the seek position) is the model of the
transaction's view. -/

/-- The badger `View` closure: scan items while the prefix matches,
stopping early with an error when a `ValueCopy` fails.  Returns the
accumulated records and the closure's returned error. -/
def badgerViewLoop (pre : String) :
    List Record → List (String × Except String String) → List Record × Option String
  | acc, [] => (acc, none)
  | acc, (k, res) :: rest =>
    if goHasPrefix pre k then
      match res with
      | .error e => (acc, some e)
      | .ok v => badgerViewLoop pre (acc ++ [⟨k, v⟩]) rest
    else (acc, none)

/-- Result of the `b.db.View(...)` call in `BadgerDBBackend.Search`:
accumulated records plus the error returned by the transaction. -/
def badgerView (items : List (String × Except String String)) (pre : String) :
    List Record × Option String :=
  badgerViewLoop pre [] items

/-- `BadgerDBBackend.Search`: the `View` error is discarded and the
method returns the accumulated records with a nil error. -/
def badgerSearch (items : List (String × Except String String)) (pre : String) :
    List Record × Option String :=
  ((badgerView items pre).1, none)

/-! ## Query dispatcher and output (src/main.go lines 86-163)

`main` splits the comma-separated query string, drops empty parts, and
caps the configured concurrency at the number of terms.  With an
effective concurrency of 1 it searches the terms in a plain loop, in
input order; otherwise it spawns workers fed from a channel and collects
results in arrival order, modelled by an explicit schedule of positions.
Each result is then printed in order: a failed term is logged and
skipped (`continue`), and each record of a successful term is printed
either as a plain `key: value` line with the value whitespace-trimmed,
or as a JSON line carrying the raw value.  `json.Marshal` of `JSONLine`
(three plain string fields) cannot fail, so the `log.Fatal` branch of
the output loop is unreachable and the query phase always completes
with exit status 0. -/

/-- One entry of the `results` slice in `main`. -/
structure QueryResult where
  query : String
  records : List Record
  err : Option String
deriving DecidableEq, Repr

/-- `concurrency := queryConcurrency; if l < concurrency { concurrency = l }`. -/
def effectiveConcurrency (queryConcurrency : Nat) (terms : List String) : Nat :=
  if terms.length < queryConcurrency then terms.length else queryConcurrency

/-- The sequential (`concurrency == 1`) query loop: one transformed
prefix search per term, in input order. -/
def runQueriesSeq (search : String → List Record × Option String)
    (terms : List String) : List QueryResult :=
  terms.map fun q => ⟨q, (search (reverse q)).1, (search (reverse q)).2⟩

/-- Arrival order of results on the output channel of the concurrent
branch: position `i` of the schedule names the term whose result arrives
`i`-th. -/
def arrivalOrder (sched : List Nat) (results : List QueryResult) : List QueryResult :=
  sched.filterMap fun i => results.get? i

/-- The query phase of `main`: the sequential loop when the effective
concurrency is 1, otherwise the worker pool with results collected in
arrival order. -/
def dispatchQueries (search : String → List Record × Option String)
    (queryConcurrency : Nat) (terms : List String) (sched : List Nat) :
    List QueryResult :=
  if effectiveConcurrency queryConcurrency terms = 1 then runQueriesSeq search terms
  else arrivalOrder sched (runQueriesSeq search terms)

/-- Code points trimmed by Go `strings.TrimSpace` (the ASCII and
Latin-1 members of Unicode White_Space, the ones relevant here). -/
def isSpaceGo (c : Char) : Bool :=
  c == ' ' || c == '\t' || c == '\n' || c == '\x0b' || c == '\x0c' || c == '\r' ||
    c == '\u0085' || c == '\u00A0'

/-- Go `strings.TrimSpace`: drop leading and trailing white space. -/
def trimSpaceGo (s : String) : String :=
  String.mk (((s.data.dropWhile isSpaceGo).reverse.dropWhile isSpaceGo).reverse)

/-- A line of query output before serialization: either the plain
`key: value` form or the data of the marshalled `JSONLine`. -/
inductive OutLine where
  | plain (key text : String)
  | jsonl (query key value : String)
deriving DecidableEq, Repr

/-- How one record of a successful result is printed: the plain branch
applies `strings.TrimSpace` to the value, the JSON branch marshals the
raw `string(r.Value)`. -/
def renderRecord (jsonFmt : Bool) (query : String) (r : Record) : OutLine :=
  if !jsonFmt then .plain (reverse r.Key) (trimSpaceGo r.Value)
  else .jsonl query (reverse r.Key) r.Value

/-- The value field a reader sees on an output line. -/
def shownValue : OutLine → String
  | .plain _ t => t
  | .jsonl _ _ v => v

/-- What the output loop does with one result. -/
inductive ResultAction where
  | logFailure (query : String)
  | output (lines : List OutLine)
  | fatal (msg : String)
deriving DecidableEq, Repr

/-- Per-result behaviour of the output loop: log-and-continue on a
failed term, print every record otherwise.  The `fatal` action (the
`log.Fatal` on a `json.Marshal` error) is never produced, because
marshalling a struct of three string fields cannot fail. -/
def handleResult (jsonFmt : Bool) (res : QueryResult) : ResultAction :=
  match res.err with
  | some _ => .logFailure res.query
  | none => .output (res.records.map (renderRecord jsonFmt res.query))

/-- All lines printed by the output loop, in order. -/
def formatResults (jsonFmt : Bool) (results : List QueryResult) : List OutLine :=
  (results.map fun res =>
    match handleResult jsonFmt res with
    | .output lines => lines
    | _ => []).flatten

/-- The terms whose failure the output loop logs, in order. -/
def failureLogs (results : List QueryResult) : List String :=
  results.filterMap fun res =>
    match res.err with
    | some _ => some res.query
    | none => none

/-- The output lines contributed by a single term. -/
def renderGroup (jsonFmt : Bool) (search : String → List Record × Option String)
    (q : String) : List OutLine :=
  match (search (reverse q)).2 with
  | some _ => []
  | none => (search (reverse q)).1.map (renderRecord jsonFmt q)

/-! ## Concrete fixtures used to evaluate the definitions -/

/-- A sample record. -/
def rA : Record := ⟨"a", "1"⟩

/-- Another sample record. -/
def rB : Record := ⟨"b", "2"⟩

/-- A backend search function that fails exactly on the transformed
term "b" and finds nothing elsewhere. -/
def searchFailB : String → List Record × Option String :=
  fun s => if s = "b" then ([], some "fail") else ([], none)

/-! ## Properties -/

theorem reverseViaSwap_eq_reverse (s : String) : reverseViaSwap s = reverse s := by
  unfold reverseViaSwap reverse
  rw [Array.toList_reverse, Array.toList_toArray]

theorem reverse_data (s : String) : (reverse s).data = s.data.reverse := rfl

theorem reverse_length (s : String) : (reverse s).length = s.length :=
  List.length_reverse s.data

theorem writerLoop_nil (b : Nat) (buf : List Record) :
    writerLoop b buf [] = if buf.isEmpty then [] else [buf] := rfl

theorem writerLoop_cons (b : Nat) (buf : List Record) (r : Record) (rs : List Record) :
    writerLoop b buf (r :: rs) =
      if buf.length + 1 = b then (buf ++ [r]) :: writerLoop b [] rs
      else writerLoop b (buf ++ [r]) rs := by
  have hl : (buf ++ [r]).length = buf.length + 1 := by simp
  simp only [writerLoop, hl]

theorem writerLoop_flatten (b : Nat) (xs : List Record) :
    ∀ buf : List Record, (writerLoop b buf xs).flatten = buf ++ xs := by
  induction xs with
  | nil =>
    intro buf
    rw [writerLoop_nil]
    by_cases h : buf.isEmpty
    · simp [h, List.isEmpty_iff.mp h]
    · simp [h]
  | cons r rs ih =>
    intro buf
    rw [writerLoop_cons]
    by_cases h : buf.length + 1 = b
    · simp [h, ih]
    · simp [h, ih]

theorem writerRun_flatten (b : Nat) (xs : List Record) :
    (writerRun b xs).flatten = xs := by
  simpa using writerLoop_flatten b xs []

theorem ceilDiv_zero (b : Nat) : ceilDiv 0 b = 0 := by
  unfold ceilDiv
  cases b with
  | zero => simp
  | succ n => exact Nat.div_eq_of_lt (by omega)

theorem ceilDiv_of_pos_le (k b : Nat) (hk : 0 < k) (hkb : k ≤ b) :
    ceilDiv k b = 1 := by
  unfold ceilDiv
  have hb : 0 < b := by omega
  rw [show k + b - 1 = (k - 1) + b by omega, Nat.add_div_right _ hb,
    Nat.div_eq_of_lt (by omega)]

theorem ceilDiv_add_self (n b : Nat) (hb : 0 < b) :
    ceilDiv (n + b) b = ceilDiv n b + 1 := by
  unfold ceilDiv
  rw [show n + b + b - 1 = (n + b - 1) + b by omega, Nat.add_div_right _ hb]

theorem writerLoop_length (b : Nat) (hb : 0 < b) (xs : List Record) :
    ∀ buf : List Record, buf.length < b →
      (writerLoop b buf xs).length = ceilDiv (buf.length + xs.length) b := by
  induction xs with
  | nil =>
    intro buf hbuf
    rw [writerLoop_nil]
    by_cases h : buf.isEmpty
    · simp [h, List.isEmpty_iff.mp h, ceilDiv_zero]
    · have hne : buf ≠ [] := by simpa [List.isEmpty_iff] using h
      have hpos : 0 < buf.length := List.length_pos.mpr hne
      have h1 : ceilDiv buf.length b = 1 :=
        ceilDiv_of_pos_le buf.length b hpos (Nat.le_of_lt hbuf)
      simp [h, h1]
  | cons r rs ih =>
    intro buf hbuf
    rw [writerLoop_cons]
    by_cases h : buf.length + 1 = b
    · rw [if_pos h, List.length_cons, ih [] (by simpa using hb)]
      have he : buf.length + (r :: rs).length = rs.length + b := by
        simp only [List.length_cons]
        omega
      rw [he, ceilDiv_add_self rs.length b hb]
      simp
    · rw [if_neg h]
      have hl : (buf ++ [r]).length = buf.length + 1 := by simp
      have hlt : (buf ++ [r]).length < b := by omega
      rw [ih (buf ++ [r]) hlt]
      congr 1
      simp only [hl, List.length_cons]
      omega

theorem writerRun_length (b : Nat) (hb : 0 < b) (xs : List Record) :
    (writerRun b xs).length = ceilDiv xs.length b := by
  simpa using writerLoop_length b hb xs [] (by simpa using hb)

theorem writerLoop_batches (b : Nat) (hb : 0 < b) (xs : List Record) :
    ∀ buf : List Record, buf.length < b →
      ∀ batch ∈ writerLoop b buf xs, batch ≠ [] ∧ batch.length ≤ b := by
  induction xs with
  | nil =>
    intro buf hbuf batch hmem
    rw [writerLoop_nil] at hmem
    by_cases h : buf.isEmpty
    · simp [h] at hmem
    · rw [if_neg h, List.mem_singleton] at hmem
      subst hmem
      exact ⟨by simpa [List.isEmpty_iff] using h, by omega⟩
  | cons r rs ih =>
    intro buf hbuf batch hmem
    rw [writerLoop_cons] at hmem
    by_cases h : buf.length + 1 = b
    · rw [if_pos h, List.mem_cons] at hmem
      rcases hmem with rfl | hmem
      · refine ⟨by simp, ?_⟩
        simp only [List.length_append, List.length_cons, List.length_nil]
        omega
      · exact ih [] (by simpa using hb) batch hmem
    · rw [if_neg h] at hmem
      have hl : (buf ++ [r]).length = buf.length + 1 := by simp
      exact ih (buf ++ [r]) (by omega) batch hmem

theorem distShare_nil (w : Nat) : distShare w [] = [] := rfl

theorem distShare_cons (w a : Nat) (r : Record) (l : List (Nat × Record)) :
    distShare w ((a, r) :: l) =
      if a = w then r :: distShare w l else distShare w l := by
  by_cases h : a = w
  · simp [distShare, h]
  · simp [distShare, h, Ne.symm h]

theorem sum_map_ite_add_one (W a : Nat) (f : Nat → Nat) (ha : a < W) :
    (((List.range W).map fun w => if a = w then f w + 1 else f w)).sum =
      (((List.range W).map f)).sum + 1 := by
  induction W with
  | zero => omega
  | succ n ih =>
    rw [List.range_succ, List.map_append, List.map_append, List.sum_append,
      List.sum_append]
    by_cases h : a = n
    · subst h
      have hmap : ((List.range a).map fun w => if a = w then f w + 1 else f w) =
          (List.range a).map f := by
        apply List.map_congr_left
        intro w hw
        have : w < a := List.mem_range.mp hw
        rw [if_neg (by omega)]
      rw [hmap]
      simp
      omega
    · have ha2 : a < n := by omega
      rw [ih ha2]
      simp only [List.map_cons, List.map_nil, List.sum_cons, List.sum_nil]
      rw [if_neg h]
      omega

theorem sum_distShare_length (W : Nat) (l : List (Nat × Record))
    (hl : ∀ p ∈ l, p.1 < W) :
    (((List.range W).map fun w => (distShare w l).length)).sum = l.length := by
  induction l with
  | nil => simp [distShare_nil]
  | cons p l ih =>
    obtain ⟨a, r⟩ := p
    have ha : a < W := hl (a, r) (List.mem_cons_self _ _)
    have htail : ∀ q ∈ l, q.1 < W := fun q hq => hl q (List.mem_cons_of_mem _ hq)
    have hmap : ((List.range W).map fun w => (distShare w ((a, r) :: l)).length) =
        (List.range W).map fun w =>
          if a = w then (distShare w l).length + 1 else (distShare w l).length := by
      apply List.map_congr_left
      intro w _
      rw [distShare_cons]
      by_cases h : a = w
      · simp [h]
      · simp [h]
    rw [hmap, sum_map_ite_add_one W a _ ha, ih htail]
    simp

theorem sumLen_append (l1 l2 : List (List Record)) :
    sumLen (l1 ++ l2) = sumLen l1 + sumLen l2 := by
  simp [sumLen]

theorem sumLen_flatten (L : List (List (List Record))) :
    sumLen L.flatten = (L.map sumLen).sum := by
  induction L with
  | nil => rfl
  | cons x L ih => simp [List.flatten_cons, sumLen_append, ih]

theorem sumLen_writerRun (b : Nat) (xs : List Record) :
    sumLen (writerRun b xs) = xs.length := by
  have hflat := writerRun_flatten b xs
  calc sumLen (writerRun b xs)
      = (writerRun b xs).flatten.length := (List.length_flatten _).symm
    _ = xs.length := by rw [hflat]

theorem sumLen_concurrentPuts (b : Nat) (l : List (Nat × Record))
    (hl : ∀ p ∈ l, p.1 < writersCount) :
    sumLen (concurrentPuts b l) = l.length := by
  unfold concurrentPuts
  rw [sumLen_flatten, List.map_map]
  have hmap : (List.range writersCount).map
      (sumLen ∘ fun w => writerRun b (distShare w l)) =
      (List.range writersCount).map fun w => (distShare w l).length := by
    apply List.map_congr_left
    intro w _
    exact sumLen_writerRun b (distShare w l)
  rw [hmap]
  exact sum_distShare_length writersCount l hl

theorem length_concurrentPuts (b : Nat) (hb : 0 < b) (l : List (Nat × Record)) :
    (concurrentPuts b l).length =
      (((List.range writersCount).map fun w =>
        ceilDiv (distShare w l).length b)).sum := by
  unfold concurrentPuts
  rw [List.length_flatten, List.map_map]
  have hmap : (List.range writersCount).map
      (List.length ∘ fun w => writerRun b (distShare w l)) =
      (List.range writersCount).map fun w => ceilDiv (distShare w l).length b := by
    apply List.map_congr_left
    intro w _
    exact writerRun_length b hb (distShare w l)
  rw [hmap]

theorem writerLoopF_fst (put : List Record → Bool) (b : Nat) (xs : List Record) :
    ∀ buf : List Record,
      (writerLoopF put b buf xs).map Prod.fst = writerLoop b buf xs := by
  induction xs with
  | nil =>
    intro buf
    by_cases h : buf.isEmpty
    · simp [writerLoopF, writerLoop, h]
    · simp [writerLoopF, writerLoop, h]
  | cons r rs ih =>
    intro buf
    by_cases h : buf.length + 1 = b
    · simp [writerLoopF, writerLoop, h, ih]
    · simp [writerLoopF, writerLoop, h, ih]

theorem writerRunF_fst (put : List Record → Bool) (b : Nat) (xs : List Record) :
    (writerRunF put b xs).map Prod.fst = writerRun b xs :=
  writerLoopF_fst put b xs []

theorem extractRecord_some (name value : String) (r : Record)
    (h : extractRecord name value = some r) :
    0 < name.length ∧ 0 < value.length ∧ r = ⟨reverse name, value⟩ := by
  by_cases hc : 0 < name.length ∧ 0 < value.length
  · rw [extractRecord, if_pos hc, Option.some_inj] at h
    exact ⟨hc.1, hc.2, h.symm⟩
  · rw [extractRecord, if_neg hc] at h
    cases h

theorem bucketPut_mem (m : List (String × String)) (k v : String)
    (kv : String × String) (h : kv ∈ bucketPut m k v) :
    kv ∈ m ∨ kv = (k, v) := by
  induction m with
  | nil =>
    rw [bucketPut, List.mem_singleton] at h
    exact Or.inr h
  | cons p rest ih =>
    obtain ⟨k0, v0⟩ := p
    rw [bucketPut] at h
    by_cases h1 : k < k0
    · rw [if_pos h1] at h
      rcases List.mem_cons.mp h with rfl | h2
      · exact Or.inr rfl
      · exact Or.inl h2
    · rw [if_neg h1] at h
      by_cases h2 : k = k0
      · rw [if_pos h2] at h
        rcases List.mem_cons.mp h with rfl | h3
        · exact Or.inr rfl
        · exact Or.inl (List.mem_cons_of_mem _ h3)
      · rw [if_neg h2] at h
        rcases List.mem_cons.mp h with rfl | h3
        · exact Or.inl (List.mem_cons_self _ _)
        · rcases ih h3 with h4 | h4
          · exact Or.inl (List.mem_cons_of_mem _ h4)
          · exact Or.inr h4

theorem bboltPut_valuesNonempty (db : Option (List (String × String)))
    (records : List Record) (hdb : BucketValuesNonempty db)
    (hrec : ∀ r ∈ records, 0 < r.Value.length) :
    BucketValuesNonempty (bboltPut db records) := by
  intro m hm kv hkv
  rw [bboltPut, Option.some_inj] at hm
  subst hm
  induction records generalizing db with
  | nil =>
    cases db with
    | none => cases hkv
    | some m0 => exact hdb m0 rfl kv hkv
  | cons r rs ih =>
    rw [List.foldl_cons] at hkv
    have hbase : BucketValuesNonempty
        (some (bucketPut (db.getD []) r.Key r.Value)) := by
      intro m1 hm1 kv1 hkv1
      rw [Option.some_inj] at hm1
      subst hm1
      rcases bucketPut_mem _ _ _ _ hkv1 with h | h
      · cases db with
        | none => cases h
        | some m0 => exact hdb m0 rfl kv1 h
      · subst h
        exact hrec r (List.mem_cons_self _ _)
    have hrs : ∀ q ∈ rs, 0 < q.Value.length :=
      fun q hq => hrec q (List.mem_cons_of_mem _ hq)
    exact ih (some (bucketPut (db.getD []) r.Key r.Value)) hbase hrs hkv

theorem foldl_bboltPut_valuesNonempty (L : List (List Record)) :
    ∀ db, BucketValuesNonempty db →
      (∀ batch ∈ L, ∀ r ∈ batch, 0 < r.Value.length) →
      BucketValuesNonempty (L.foldl bboltPut db) := by
  induction L with
  | nil =>
    intro db hdb _
    exact hdb
  | cons batch L ih =>
    intro db hdb hb
    rw [List.foldl_cons]
    apply ih
    · exact bboltPut_valuesNonempty db batch hdb (hb batch (List.mem_cons_self _ _))
    · intro b2 hb2 r hr
      exact hb b2 (List.mem_cons_of_mem _ hb2) r hr

theorem loadBbolt_valuesNonempty (batchSize : Nat)
    (lines : List (String × String)) :
    BucketValuesNonempty (loadBbolt batchSize lines) := by
  have hext : ∀ r ∈ extractAll lines, 0 < r.Value.length := by
    intro r hr
    obtain ⟨p, _, hp⟩ := List.mem_filterMap.mp hr
    obtain ⟨_, hv, hre⟩ := extractRecord_some p.1 p.2 r hp
    subst hre
    exact hv
  have hbatch : ∀ batch ∈ writerRun batchSize (extractAll lines),
      ∀ r ∈ batch, 0 < r.Value.length := by
    intro batch hb r hr
    apply hext
    rw [← writerRun_flatten batchSize (extractAll lines)]
    exact List.mem_flatten.mpr ⟨batch, hb, hr⟩
  unfold loadBbolt
  apply foldl_bboltPut_valuesNonempty _ bboltOpen _ hbatch
  intro m hm
  cases hm

theorem bboltSearch_ok_valuesNonempty (db : Option (List (String × String)))
    (hdb : BucketValuesNonempty db) (pre : String) (recs : List Record)
    (hok : bboltSearch db pre = .ok recs) :
    ∀ r ∈ recs, 0 < r.Value.length := by
  intro r hr
  cases db with
  | none => cases hok
  | some m =>
    rw [bboltSearch, BBoltSearchOutcome.ok.injEq] at hok
    subst hok
    obtain ⟨p, hp, hpr⟩ := List.mem_map.mp hr
    have hpm : p ∈ m := List.mem_of_mem_filter hp
    have := hdb m rfl p hpm
    rw [← hpr]
    exact this

theorem handleResult_ne_fatal (jsonFmt : Bool) (res : QueryResult) (m : String) :
    handleResult jsonFmt res ≠ .fatal m := by
  unfold handleResult
  cases res.err <;> simp

theorem formatResults_seq (jsonFmt : Bool)
    (search : String → List Record × Option String) (terms : List String) :
    formatResults jsonFmt (runQueriesSeq search terms) =
      (terms.map (renderGroup jsonFmt search)).flatten := by
  unfold formatResults runQueriesSeq
  rw [List.map_map]
  congr 1
  apply List.map_congr_left
  intro q _
  show (match handleResult jsonFmt ⟨q, (search (reverse q)).1, (search (reverse q)).2⟩ with
    | .output lines => lines
    | _ => []) = renderGroup jsonFmt search q
  cases h : (search (reverse q)).2 <;> simp [handleResult, renderGroup, h]

/-- C1: applying the key transform twice returns the original string;
the transform reverses the sequence of code points of its argument. -/
theorem claim_transform_involutive (s : String) :
    (reverse s).data = s.data.reverse ∧ reverse (reverse s) = s := by
  constructor
  · rfl
  · show String.mk (String.mk s.data.reverse).data.reverse = s
    cases s with
    | mk data =>
      show String.mk data.reverse.reverse = String.mk data
      rw [List.reverse_reverse]

/-- C2, counterexample: with 2 valid records, batch size 5 and a
schedule in which the channel delivers one record to writer 0 and one to
writer 1, the run makes 2 `Put` calls, not `ceil(2/5) = 1`: the claimed
`ceil(N/B)` count fails for the 4-writer `loadFile` of src/main.go,
whose writers each drain their own partial buffer. -/
theorem claim_load_put_count_counterexample :
    (∀ p ∈ [(0, rA), (1, rB)], p.1 < writersCount) ∧
    sumLen (concurrentPuts 5 [(0, rA), (1, rB)]) = 2 ∧
    (concurrentPuts 5 [(0, rA), (1, rB)]).length = 2 ∧
    ceilDiv 2 5 = 1 ∧
    (concurrentPuts 5 [(0, rA), (1, rB)]).length ≠
      ceilDiv ([(0, rA), (1, rB)] : List (Nat × Record)).length 5 := by
  decide

/-- C2, amended: for every schedule of `N` valid records over the 4
writers with batch size `B > 0`, the combined record count over all
`Put` calls equals `N`, and the number of `Put` calls is the sum over
the writers of `ceil(n_w/B)` for the `n_w` records writer `w` received;
when a single worker consumes the whole stream — in particular in the
sequential `loadFile` variant (src/unnamed/part_002) — that number is
exactly `ceil(N/B)`. -/
theorem claim_load_put_count_amended (b : Nat) (l : List (Nat × Record))
    (hb : 0 < b) (hl : ∀ p ∈ l, p.1 < writersCount) :
    sumLen (concurrentPuts b l) = l.length ∧
    (concurrentPuts b l).length =
      (((List.range writersCount).map fun w =>
        ceilDiv (distShare w l).length b)).sum ∧
    ∀ xs : List Record,
      (writerRun b xs).length = ceilDiv xs.length b ∧
      sumLen (writerRun b xs) = xs.length :=
  ⟨sumLen_concurrentPuts b l hl, length_concurrentPuts b hb l,
    fun xs => ⟨writerRun_length b hb xs, sumLen_writerRun b xs⟩⟩

/-- C2, witness for the amended claim at batch size 5 and a concrete
2-record schedule. -/
theorem claim_load_put_count_amended_witness :
    (0 < 5 ∧ ∀ p ∈ [(0, rA), (1, rB)], p.1 < writersCount) ∧
    sumLen (concurrentPuts 5 [(0, rA), (1, rB)]) =
      ([(0, rA), (1, rB)] : List (Nat × Record)).length :=
  ⟨⟨by decide, by decide⟩,
    (claim_load_put_count_amended 5 [(0, rA), (1, rB)] (by decide) (by decide)).1⟩

/-- C3: a record emitted by extraction has a non-empty key and a
non-empty value; a line with a missing or empty field yields no record;
and every record retrievable by a bbolt search after a load has a
non-empty value. -/
theorem claim_records_nonempty :
    (∀ name value r, extractRecord name value = some r →
      0 < r.Key.length ∧ 0 < r.Value.length) ∧
    (∀ name value, name.length = 0 ∨ value.length = 0 →
      extractRecord name value = none) ∧
    (∀ b lines pre recs, bboltSearch (loadBbolt b lines) pre = .ok recs →
      ∀ r ∈ recs, 0 < r.Value.length) := by
  refine ⟨?_, ?_, ?_⟩
  · intro name value r h
    obtain ⟨hn, hv, hr⟩ := extractRecord_some name value r h
    subst hr
    refine ⟨?_, hv⟩
    show 0 < (reverse name).length
    rw [reverse_length]
    exact hn
  · intro name value h
    rw [extractRecord, if_neg]
    omega
  · intro b lines pre recs hok r hr
    exact bboltSearch_ok_valuesNonempty _ (loadBbolt_valuesNonempty b lines)
      pre recs hok r hr

/-- C3, witness: a concrete extraction, a concrete dropped line, and a
concrete load-then-search. -/
theorem claim_records_nonempty_witness :
    (0 < (Record.mk (reverse "ab") " 1 ").Key.length ∧
      0 < (Record.mk (reverse "ab") " 1 ").Value.length) ∧
    extractRecord "ab" "" = none ∧
    (∀ r ∈ [Record.mk "ba" "v"], 0 < r.Value.length) :=
  ⟨claim_records_nonempty.1 "ab" " 1 " (Record.mk (reverse "ab") " 1 ") (by decide),
   claim_records_nonempty.2.1 "ab" "" (Or.inr (by decide)),
   claim_records_nonempty.2.2 1 [("ab", "v")] "" [Record.mk "ba" "v"] (by decide)⟩

/-- C4: over one writer's whole input stream, the flushed batches
concatenate back to exactly the input (each accepted record lands in
exactly one `Put` call), and with a positive batch size every flushed
batch is non-empty and at most the batch size (capacity flushes plus one
final drain of the non-empty partial buffer). -/
theorem claim_batch_exactly_once (b : Nat) (xs : List Record) :
    (writerRun b xs).flatten = xs ∧
    (0 < b → ∀ batch ∈ writerRun b xs, batch ≠ [] ∧ batch.length ≤ b) :=
  ⟨writerRun_flatten b xs,
    fun hb => writerLoop_batches b hb xs [] (by simpa using hb)⟩

/-- C4, witness at batch size 2 and a 3-record stream. -/
theorem claim_batch_exactly_once_witness :
    (writerRun 2 [rA, rB, rA]).flatten = [rA, rB, rA] ∧
    (∀ batch ∈ writerRun 2 [rA, rB, rA], batch ≠ [] ∧ batch.length ≤ 2) :=
  ⟨(claim_batch_exactly_once 2 [rA, rB, rA]).1,
   (claim_batch_exactly_once 2 [rA, rB, rA]).2 (by decide)⟩

/-- C5: whatever subset of `Put` calls fails, the attempted batches are
the same as in a failure-free run (each batch attempted exactly once,
never retried or redirected), the attempted batches still cover the
whole record stream (ingestion proceeds past failures), and `loadFile`
returns `scanner.Err()` — nil on a clean scan — untouched by `Put`
outcomes. -/
theorem claim_put_failure_nonfatal (put : List Record → Bool) (b : Nat)
    (xs : List Record) :
    (writerRunF put b xs).map Prod.fst = writerRun b xs ∧
    ((writerRunF put b xs).map Prod.fst).flatten = xs ∧
    loadFileReturn none = none := by
  refine ⟨writerRunF_fst put b xs, ?_, rfl⟩
  rw [writerRunF_fst put b xs]
  exact writerRun_flatten b xs

/-- C6: when the effective concurrency (configured concurrency capped
at the number of terms) is 1, `main` takes the sequential branch, the
result list carries the terms in exactly their input order, and the
printed output is the per-term groups concatenated in that order. -/
theorem claim_sequential_order (search : String → List Record × Option String)
    (queryConcurrency : Nat) (terms : List String) (sched : List Nat)
    (h1 : effectiveConcurrency queryConcurrency terms = 1) :
    (dispatchQueries search queryConcurrency terms sched).map QueryResult.query =
      terms ∧
    ∀ jsonFmt, formatResults jsonFmt
        (dispatchQueries search queryConcurrency terms sched) =
      (terms.map (renderGroup jsonFmt search)).flatten := by
  unfold dispatchQueries
  rw [if_pos h1]
  refine ⟨?_, fun jsonFmt => formatResults_seq jsonFmt search terms⟩
  unfold runQueriesSeq
  rw [List.map_map]
  have : (QueryResult.query ∘ fun q =>
      (⟨q, (search (reverse q)).1, (search (reverse q)).2⟩ : QueryResult)) =
      fun q => q := rfl
  rw [this]
  simp

/-- C6, witness: concurrency 1 over terms a, b, c preserves order. -/
theorem claim_sequential_order_witness :
    effectiveConcurrency 1 ["a", "b", "c"] = 1 ∧
    (dispatchQueries searchFailB 1 ["a", "b", "c"] []).map QueryResult.query =
      ["a", "b", "c"] :=
  ⟨by decide,
    (claim_sequential_order searchFailB 1 ["a", "b", "c"] [] (by decide)).1⟩

/-- C7: for terms a, b, c where the search of b fails and those of a and
c succeed, the output is exactly a's records followed by c's records (b
contributes an empty block), b is logged as the only failure, and no
result takes the fatal (nonzero-exit) path of the output loop. -/
theorem claim_search_failure_isolated (jsonFmt : Bool)
    (search : String → List Record × Option String) (a b c e : String)
    (recsA recsB recsC : List Record)
    (hA : search (reverse a) = (recsA, none))
    (hB : search (reverse b) = (recsB, some e))
    (hC : search (reverse c) = (recsC, none)) :
    formatResults jsonFmt (runQueriesSeq search [a, b, c]) =
      recsA.map (renderRecord jsonFmt a) ++ recsC.map (renderRecord jsonFmt c) ∧
    failureLogs (runQueriesSeq search [a, b, c]) = [b] ∧
    ∀ res ∈ runQueriesSeq search [a, b, c], ∀ m,
      handleResult jsonFmt res ≠ .fatal m := by
  refine ⟨?_, ?_, fun res _ m => handleResult_ne_fatal jsonFmt res m⟩
  · simp [formatResults, runQueriesSeq, handleResult, hA, hB, hC]
  · simp [failureLogs, runQueriesSeq, hA, hB, hC]

/-- C7, witness at a concrete search function failing exactly on b. -/
theorem claim_search_failure_isolated_witness :
    formatResults false (runQueriesSeq searchFailB ["a", "b", "c"]) = [] ∧
    failureLogs (runQueriesSeq searchFailB ["a", "b", "c"]) = ["b"] ∧
    (∀ res ∈ runQueriesSeq searchFailB ["a", "b", "c"], ∀ m,
      handleResult false res ≠ .fatal m) :=
  claim_search_failure_isolated false searchFailB "a" "b" "c" "fail" [] [] []
    (by decide) (by decide) (by decide)

/-- C8, counterexample: in JSON output the displayed value is the raw
`string(r.Value)`, not the trimmed one — for value " x " the JSON line
shows " x " while trimming yields "x", refuting "trimmed regardless of
the selected output format". -/
theorem claim_value_display_counterexample :
    shownValue (renderRecord true "q" (Record.mk "k" " x ")) ≠
      trimSpaceGo (Record.mk "k" " x ").Value ∧
    trimSpaceGo (Record.mk "k" " x ").Value = "x" ∧
    shownValue (renderRecord true "q" (Record.mk "k" " x ")) = " x " := by
  decide

/-- C8, amended: the plain (`key: value`) output displays the value with
surrounding whitespace trimmed; the JSON output displays the raw value;
and the stored value itself is the raw field bytes (extraction copies
the value untrimmed). -/
theorem claim_value_display_amended :
    (∀ q r, shownValue (renderRecord false q r) = trimSpaceGo r.Value) ∧
    (∀ q r, shownValue (renderRecord true q r) = r.Value) ∧
    (∀ name value r, extractRecord name value = some r → r.Value = value) := by
  refine ⟨fun q r => rfl, fun q r => rfl, fun name value r h => ?_⟩
  obtain ⟨_, _, hr⟩ := extractRecord_some name value r h
  subst hr
  rfl

/-- C8, witness for the amended claim at the value " x ". -/
theorem claim_value_display_amended_witness :
    shownValue (renderRecord false "q" (Record.mk "k" " x ")) =
      trimSpaceGo (Record.mk "k" " x ").Value ∧
    shownValue (renderRecord true "q" (Record.mk "k" " x ")) =
      (Record.mk "k" " x ").Value ∧
    (Record.mk (reverse "ab") " x ").Value = " x " :=
  ⟨claim_value_display_amended.1 "q" (Record.mk "k" " x "),
   claim_value_display_amended.2.1 "q" (Record.mk "k" " x "),
   claim_value_display_amended.2.2 "ab" " x " (Record.mk (reverse "ab") " x ")
     (by decide)⟩

/-- C9: searching a bbolt database that never had a successful `Put` —
so the bucket named "bucket" does not exist — hits the nil-bucket
dereference panic rather than returning records or an error; after any
`Put` the bucket exists and the panic cannot occur. -/
theorem claim_bbolt_nil_bucket_panic (pre : String) :
    bboltSearch bboltOpen pre = .nilBucketPanic ∧
    (∀ recs, bboltSearch bboltOpen pre ≠ .ok recs) ∧
    (∀ db records, bboltSearch (bboltPut db records) pre ≠ .nilBucketPanic) := by
  refine ⟨rfl, fun recs h => ?_, fun db records h => ?_⟩
  · simp [bboltSearch, bboltOpen] at h
  · simp [bboltSearch, bboltPut] at h

/-- C10: `BadgerDBBackend.Search` always returns a nil error — the
error of the `db.View` transaction, including a mid-iteration
`ValueCopy` failure, is discarded — and the records it returns are
exactly those the view accumulated before any failure. -/
theorem claim_badger_error_discarded
    (items : List (String × Except String String)) (pre : String) :
    (badgerSearch items pre).2 = none ∧
    (badgerSearch items pre).1 = (badgerView items pre).1 :=
  ⟨rfl, rfl⟩

end Kvdb
